import Mathlib

/-!
Verification of the filesystem-backed persistent collection engine of
`src/ds/persistent.py` (classes `PersistentCollection`, `PersistentDict`,
`PersistentList`).

Shallow embedding:
* The Ordered Store (`PersistentList`) keeps one file per index; file names are
  the decimal rendering of an integer, so the backing directory is modelled as
  a partial map `Int → Option T` (`FS T`).  The metadata length is an `Int`
  (a Python `int`).
* The Keyed Store (`PersistentDict`) resolves a key to a path via the
  pluggable `hash` function; the backing directory is modelled as an
  association list `List (P × K × V)` from path to the stored `(key, value)`
  pair, so that the number of entry files is its list length.
* Serialization (`pickle` + pydantic `Pair`) is modelled as the identity
  round-trip: an entry file holds the value (or pair) itself.
* Python exceptions become `Except` errors carrying the exception class
  (and message where the code distinguishes messages).
-/

namespace PersistentStore

/-- Backing directory of an Ordered Store root: maps the integer file name
(`str(idx)`) to the stored value, `none` when no such file exists. -/
abbrev FS (T : Type) := Int → Option T

/-- `path.write_bytes(pickle.dumps(v))`: (over)write the file named `p`. -/
def fsWrite {T : Type} (fs : FS T) (p : Int) (v : T) : FS T :=
  fun q => if q = p then some v else fs q

/-- `path.unlink()`: remove the file named `p`. -/
def fsDelete {T : Type} (fs : FS T) (p : Int) : FS T :=
  fun q => if q = p then none else fs q

/-- `old.rename(dst)`: the destination gets the source's contents (an existing
destination is overwritten, POSIX semantics) and the source disappears. -/
def fsRename {T : Type} (fs : FS T) (src dst : Int) : FS T :=
  fun q => if q = dst then fs src else if q = src then none else fs q

/-- `range(a, b)` over Python integers, as the list `[a, a+1, ..., b-1]`. -/
def intRange (a b : Int) : List Int :=
  if h : a < b then a :: intRange (a + 1) b else []
  termination_by (b - a).toNat
  decreasing_by omega

/-- One iteration of the loop body of `PersistentList._shift_files`:
`if old_path.exists(): old_path.rename(new_path)` for index `i`. -/
def shiftStep {T : Type} (fs : FS T) (i shift : Int) : FS T :=
  match fs i with
  | none => fs
  | some _ => fsRename fs i (i + shift)

/-- Exceptions raised by `PersistentList` operations. -/
inductive ListErr where
  | indexError (msg : String)
  | valueError
  | fileNotFound
  deriving DecidableEq, Repr

/-- State of one `PersistentList` root: the metadata `length` field and the
entry files. -/
structure ListState (T : Type) where
  length : Int
  files : FS T

/-- A freshly bootstrapped root (`__filesystem_setup`): metadata length 0 and
no entry files. -/
def emptyList (T : Type) : ListState T := ⟨0, fun _ => none⟩

namespace PersistentList

variable {T : Type}

/-- `PersistentList._shift_files(start_idx, shift)`: iterate over
`range(start_idx, len(self))`, in reverse when `shift ≥ 0`, renaming each
existing file `i` to `i + shift`. -/
def shiftFiles (st : ListState T) (startIdx shift : Int) : ListState T :=
  let startToEnd := intRange startIdx st.length
  let order := if shift < 0 then startToEnd else startToEnd.reverse
  { st with files := order.foldl (fun fs i => shiftStep fs i shift) st.files }

/-- `PersistentCollection._len_delta(delta)`. -/
def lenDelta (st : ListState T) (delta : Int) : ListState T :=
  { st with length := st.length + delta }

/-- `PersistentList._validate_index(idx)`: Python-style negative-index
normalization, then bounds check against `[0, len)`. -/
def validateIndex (st : ListState T) (idx : Int) : Except ListErr Int :=
  let idx2 := if idx < 0 then st.length + idx else idx
  if idx2 < 0 ∨ st.length ≤ idx2 then .error (.indexError "list index out of range")
  else .ok idx2

/-- `PersistentList.__getitem__(idx)`: validate, then read the file. -/
def getItem (st : ListState T) (idx : Int) : Except ListErr T :=
  match validateIndex st idx with
  | .error e => .error e
  | .ok i =>
    match st.files i with
    | none => .error .fileNotFound
    | some v => .ok v

/-- `PersistentList.__setitem__(idx, item)`: validate, then write the file. -/
def setItem (st : ListState T) (idx : Int) (item : T) : Except ListErr (ListState T) :=
  match validateIndex st idx with
  | .error e => .error e
  | .ok i => .ok { st with files := fsWrite st.files i item }

/-- `PersistentList.append(item)`: write at index `len(self)`, increment. -/
def append (st : ListState T) (item : T) : ListState T :=
  lenDelta { st with files := fsWrite st.files st.length item } 1

/-- `PersistentList.insert(idx, item)`: clamp the index into `[0, len]`,
shift up, write, increment the length. -/
def insert (st : ListState T) (idx : Int) (item : T) : ListState T :=
  let currentLen := st.length
  let idx2 := if idx < 0 then max 0 (currentLen + idx) else min idx currentLen
  let st2 := shiftFiles st idx2 1
  lenDelta { st2 with files := fsWrite st2.files idx2 item } 1

/-- `PersistentList.pop(idx)`: bounds-checked removal; reads the value,
unlinks its file, shifts the tail down, decrements the length. -/
def pop (st : ListState T) (idx : Int) : Except ListErr (T × ListState T) :=
  let currentLen := st.length
  if currentLen = 0 then .error (.indexError "pop from empty list")
  else
    let idx2 := if idx < 0 then currentLen + idx else idx
    if idx2 < 0 ∨ currentLen ≤ idx2 then .error (.indexError "pop index out of range")
    else
      match getItem st idx2 with
      | .error e => .error e
      | .ok item =>
        let st2 := { st with files := fsDelete st.files idx2 }
        let st3 := shiftFiles st2 (idx2 + 1) (-1)
        .ok (item, lenDelta st3 (-1))

/-- The scan of `PersistentList.remove(item)` over the index list
`range(len(self))`: pop at the first index whose file equals `item`. -/
def removeAux [DecidableEq T] (st : ListState T) (item : T) : List Int → Except ListErr (T × ListState T)
  | [] => .error .valueError
  | i :: rest =>
    match st.files i with
    | none => .error .fileNotFound
    | some v => if v = item then pop st i else removeAux st item rest

/-- `PersistentList.remove(item)`: linear scan in position order, pop the
first match, `ValueError` when absent. -/
def remove [DecidableEq T] (st : ListState T) (item : T) : Except ListErr (T × ListState T) :=
  removeAux st item (intRange 0 st.length)

/-- `PersistentList.extend(items)`: sequential `append`. -/
def extend (st : ListState T) (items : List T) : ListState T :=
  items.foldl append st

/-- `PersistentCollection.clear()`: remove the root and recreate it empty. -/
def clear (st : ListState T) : ListState T :=
  emptyList T

end PersistentList

/-- `st` is the on-disk state of the reference in-memory list `L`: the
metadata length is `L`'s length, and file `i` holds `L[i]` exactly for
`0 ≤ i < L.length`. -/
def represents {T : Type} (st : ListState T) (L : List T) : Prop :=
  st.length = (L.length : Int) ∧ ∀ i : Int, st.files i = if 0 ≤ i then L[i.toNat]? else none

/-- Direct construction of the on-disk state of a list `L`. -/
def ofList {T : Type} (L : List T) : ListState T :=
  ⟨(L.length : Int), fun i => if 0 ≤ i then L[i.toNat]? else none⟩

theorem ofList_represents {T : Type} (L : List T) : represents (ofList L) L :=
  ⟨rfl, fun _ => rfl⟩

theorem represents_empty (T : Type) : represents (emptyList T) [] := by
  refine ⟨rfl, fun i => ?_⟩
  simp [emptyList]

theorem intRange_eq_nil {a b : Int} (h : b ≤ a) : intRange a b = [] := by
  rw [intRange]
  simp [show ¬a < b by omega]

theorem intRange_eq_cons {a b : Int} (h : a < b) : intRange a b = a :: intRange (a + 1) b := by
  rw [intRange]
  simp [h]

/-- Processing `range(k, n)` in descending order with `shift = 1` (the insert
shift) moves every file one slot up: afterwards slot `k` is free, slots
`k+1 .. n` hold what `k .. n-1` held, and everything below `k` is untouched.
Requires that nothing is stored at `n` or beyond. -/
theorem shiftUp_spec {T : Type} (k n : Int) (fs : FS T) (hkn : k ≤ n)
    (habove : ∀ q, n ≤ q → fs q = none) (q : Int) :
    (intRange k n).foldr (fun i g => shiftStep g i 1) fs q =
      if q < k then fs q else if q = k then none
      else if q ≤ n then fs (q - 1) else none := by
  by_cases h : k < n
  · rw [intRange_eq_cons h]
    simp only [List.foldr_cons]
    have IH := fun q => shiftUp_spec (k + 1) n fs (by omega) habove q
    set inner := (intRange (k + 1) n).foldr (fun i g => shiftStep g i 1) fs with hinner
    have hik : inner k = fs k := by
      rw [IH k]
      simp [show k < k + 1 by omega]
    cases hfk : fs k with
    | none =>
      have hstep : shiftStep inner k 1 = inner := by
        unfold shiftStep
        rw [hik, hfk]
      rw [hstep, IH q]
      split_ifs <;>
        first
          | rfl
          | omega
          | (rw [show q = k from by omega]; exact hfk)
          | (rw [show q - 1 = k from by omega, hfk])
    | some v =>
      have hstep : shiftStep inner k 1 = fsRename inner k (k + 1) := by
        unfold shiftStep
        rw [hik, hfk]
      rw [hstep]
      simp only [fsRename]
      rw [hik, hfk, IH q]
      split_ifs <;>
        first
          | rfl
          | omega
          | (rw [show q = k from by omega]; exact hfk)
          | (rw [show q - 1 = k from by omega, hfk])
  · have hk : k = n := by omega
    rw [intRange_eq_nil (by omega)]
    simp only [List.foldr_nil]
    split_ifs with h1 h2 h3
    · rfl
    · rw [show q = k from h2]; exact habove k (by omega)
    · omega
    · exact habove q (by omega)
  termination_by (n - k).toNat
  decreasing_by omega

/-- Processing `range(k, n)` in ascending order with `shift = -1` (the pop
shift) moves every file one slot down into the hole at `k - 1`: afterwards
slots `k-1 .. n-2` hold what `k .. n-1` held, slot `n-1` is free, and slots
outside `[k-1, n)` are untouched. Requires the hole `fs (k-1) = none`. -/
theorem shiftDown_spec {T : Type} (k n : Int) (fs : FS T) (hkn : k ≤ n)
    (hhole : fs (k - 1) = none) (q : Int) :
    (intRange k n).foldl (fun g i => shiftStep g i (-1)) fs q =
      if q < k - 1 then fs q
      else if q + 1 < n then fs (q + 1)
      else if q < n then none
      else fs q := by
  by_cases h : k < n
  · rw [intRange_eq_cons h]
    simp only [List.foldl_cons]
    have hstep : ∀ r : Int, shiftStep fs k (-1) r =
        if r = k - 1 then fs k else if r = k then none else fs r := by
      intro r
      unfold shiftStep
      cases hfk : fs k with
      | none =>
        show fs r = _
        split_ifs with h1 h2
        · rw [h1, hhole]
        · rw [h2, hfk]
        · rfl
      | some v =>
        show fsRename fs k (k + -1) r = _
        simp only [fsRename, show k + -1 = k - 1 from by omega, hfk]
    have hhole2 : shiftStep fs k (-1) (k + 1 - 1) = none := by
      rw [hstep, if_neg (show ¬(k + 1 - 1 = k - 1) from by omega),
        if_pos (show k + 1 - 1 = k from by omega)]
    have IH := shiftDown_spec (k + 1) n (shiftStep fs k (-1)) (by omega) hhole2 q
    rw [IH]
    simp only [hstep]
    split_ifs <;>
      first
        | rfl
        | omega
        | (rw [show q + 1 = k from by omega])
  · have hk : k = n := by omega
    rw [intRange_eq_nil (by omega)]
    simp only [List.foldl_nil]
    split_ifs with h1 h2 h3
    · rfl
    · omega
    · have hq : q = k - 1 := by omega
      rw [hq, hhole]
    · rfl
  termination_by (n - k).toNat
  decreasing_by omega

theorem insertIdx_getElem? {T : Type} (L : List T) (k : Nat) (v : T) (q : Nat) (hk : k ≤ L.length) :
    (L.insertIdx k v)[q]? = if q < k then L[q]? else if q = k then some v else L[q - 1]? := by
  induction L generalizing k q with
  | nil =>
    have hk0 : k = 0 := by simpa using hk
    subst hk0
    simp only [List.insertIdx_zero]
    cases q with
    | zero => simp
    | succ q2 => simp
  | cons a L IH =>
    cases k with
    | zero =>
      simp only [List.insertIdx_zero]
      cases q with
      | zero => simp
      | succ q2 => simp
    | succ k2 =>
      rw [List.insertIdx_succ_cons]
      cases q with
      | zero => simp
      | succ q2 =>
        rw [List.getElem?_cons_succ, IH k2 q2 (by simpa using hk)]
        simp only [Nat.add_lt_add_iff_right, Nat.add_right_cancel_iff, Nat.add_sub_cancel]
        by_cases h1 : q2 < k2
        · rw [if_pos h1, if_pos h1, List.getElem?_cons_succ]
        · rw [if_neg h1, if_neg h1]
          by_cases h2 : q2 = k2
          · rw [if_pos h2, if_pos h2]
          · rw [if_neg h2, if_neg h2]
            obtain ⟨m, rfl⟩ : ∃ m, q2 = m + 1 := ⟨q2 - 1, by omega⟩
            simp

theorem eraseIdx_getElem? {T : Type} (L : List T) (k : Nat) (q : Nat) :
    (L.eraseIdx k)[q]? = if q < k then L[q]? else L[q + 1]? := by
  induction L generalizing k q with
  | nil => simp [List.eraseIdx]
  | cons a L IH =>
    cases k with
    | zero => simp [List.eraseIdx]
    | succ k2 =>
      rw [show (a :: L).eraseIdx (k2 + 1) = a :: L.eraseIdx k2 from rfl]
      cases q with
      | zero => simp
      | succ q2 =>
        rw [List.getElem?_cons_succ, IH k2 q2, List.getElem?_cons_succ]
        by_cases h1 : q2 < k2
        · rw [if_pos h1, if_pos (by omega)]
        · rw [if_neg h1, if_neg (by omega), List.getElem?_cons_succ]

theorem append_singleton_getElem? {T : Type} (L : List T) (v : T) (q : Nat) :
    (L ++ [v])[q]? = if q < L.length then L[q]? else if q = L.length then some v else none := by
  rw [List.getElem?_append]
  by_cases h1 : q < L.length
  · rw [if_pos h1, if_pos h1]
  · rw [if_neg h1, if_neg h1]
    by_cases h2 : q = L.length
    · rw [if_pos h2, show q - L.length = 0 from by omega]
      rfl
    · rw [if_neg h2]
      obtain ⟨m, hm⟩ : ∃ m, q - L.length = m + 1 := ⟨q - L.length - 1, by omega⟩
      rw [hm]
      rfl

theorem represents_above {T : Type} {st : ListState T} {L : List T} (h : represents st L)
    (q : Int) (hq : st.length ≤ q) : st.files q = none := by
  rw [h.2 q]
  by_cases h0 : 0 ≤ q
  · rw [if_pos h0]
    refine List.getElem?_eq_none ?_
    have hl := h.1
    omega
  · rw [if_neg h0]

/-- The index clamp performed by `PersistentList.insert`. -/
def clampIdx (len idx : Int) : Int :=
  if idx < 0 then max 0 (len + idx) else min idx len

theorem clampIdx_bounds (len idx : Int) (hlen : 0 ≤ len) :
    0 ≤ clampIdx len idx ∧ clampIdx len idx ≤ len := by
  unfold clampIdx
  split_ifs <;> omega

theorem shiftFiles_up_files {T : Type} (st : ListState T) (k : Int) :
    (PersistentList.shiftFiles st k 1).files =
      (intRange k st.length).foldr (fun i g => shiftStep g i 1) st.files := by
  show (if (1:Int) < 0 then intRange k st.length else (intRange k st.length).reverse).foldl
      (fun fs i => shiftStep fs i 1) st.files = _
  rw [if_neg (show ¬((1:Int) < 0) from by norm_num), List.foldl_reverse]

theorem shiftFiles_down_files {T : Type} (st : ListState T) (k : Int) :
    (PersistentList.shiftFiles st k (-1)).files =
      (intRange k st.length).foldl (fun fs i => shiftStep fs i (-1)) st.files := by
  show (if (-1:Int) < 0 then intRange k st.length else (intRange k st.length).reverse).foldl
      (fun fs i => shiftStep fs i (-1)) st.files = _
  rw [if_pos (show ((-1:Int) < 0) from by norm_num)]

/-- `PersistentList.insert` realises `List.insertIdx` at the clamped index on
the reference list: no element is lost or duplicated by the descending shift. -/
theorem insert_represents {T : Type} (st : ListState T) (L : List T) (idx : Int) (v : T)
    (h : represents st L) :
    represents (PersistentList.insert st idx v)
      (L.insertIdx (clampIdx (L.length : Int) idx).toNat v) := by
  have hlen := h.1
  have hfiles := h.2
  have hb := clampIdx_bounds (L.length : Int) idx (by exact_mod_cast Nat.zero_le L.length)
  set k : Int := clampIdx (L.length : Int) idx with hkdef
  have hkst : clampIdx st.length idx = k := by rw [hkdef, hlen]
  have hkn : k.toNat ≤ L.length := by omega
  have hstlen : 0 ≤ st.length := by omega
  constructor
  · show st.length + 1 = _
    rw [List.length_insertIdx k.toNat L hkn]
    push_cast
    omega
  · intro i
    show fsWrite (PersistentList.shiftFiles st (clampIdx st.length idx) 1).files
      (clampIdx st.length idx) v i = _
    rw [hkst, shiftFiles_up_files]
    have habove : ∀ q, st.length ≤ q → st.files q = none := fun q hq =>
      represents_above h q hq
    rw [show (fun i g => shiftStep g i 1) = (fun i (g : FS T) => shiftStep g i 1) from rfl]
    simp only [fsWrite]
    rw [shiftUp_spec k st.length st.files (by omega) habove i]
    by_cases hik : i = k
    · rw [if_pos hik, if_pos (by omega), insertIdx_getElem? L k.toNat v i.toNat hkn,
        if_neg (by omega), if_pos (by omega)]
    · rw [if_neg hik]
      by_cases hlt : i < k
      · rw [if_pos hlt, hfiles i]
        by_cases h0 : 0 ≤ i
        · rw [if_pos h0, if_pos h0, insertIdx_getElem? L k.toNat v i.toNat hkn,
            if_pos (by omega)]
        · rw [if_neg h0, if_neg h0]
      · rw [if_neg hlt, if_neg hik]
        by_cases hle : i ≤ st.length
        · rw [if_pos hle, hfiles (i - 1), if_pos (by omega), if_pos (by omega),
            insertIdx_getElem? L k.toNat v i.toNat hkn, if_neg (by omega), if_neg (by omega),
            show (i - 1).toNat = i.toNat - 1 from by omega]
        · rw [if_neg hle, if_pos (by omega), insertIdx_getElem? L k.toNat v i.toNat hkn,
            if_neg (by omega), if_neg (by omega)]
          exact (List.getElem?_eq_none (by omega)).symm

/-- Reading a valid non-negative index returns the reference list's element. -/
theorem getItem_at {T : Type} (st : ListState T) (L : List T) (h : represents st L)
    (k : Nat) (hk : k < L.length) :
    PersistentList.getItem st (k : Int) = Except.ok (L.get ⟨k, hk⟩) := by
  have hlen := h.1
  have hfiles := h.2
  unfold PersistentList.getItem PersistentList.validateIndex
  rw [if_neg (show ¬((k : Int) < 0) from by omega)]
  rw [if_neg (show ¬((k : Int) < 0 ∨ st.length ≤ (k : Int)) from by omega)]
  show (match st.files (k : Int) with
    | none => Except.error ListErr.fileNotFound
    | some v => Except.ok v) = _
  rw [hfiles (k : Int), if_pos (show (0:Int) ≤ (k : Int) from by omega),
    show ((k : Int)).toNat = k from by omega,
    List.getElem?_eq_getElem hk]
  rw [List.get_eq_getElem]

/-- Zeta-expanded form of `PersistentList.pop`. -/
theorem pop_eq {T : Type} (st : ListState T) (idx : Int) :
    PersistentList.pop st idx =
      if st.length = 0 then .error (.indexError "pop from empty list")
      else
        if (if idx < 0 then st.length + idx else idx) < 0 ∨
            st.length ≤ (if idx < 0 then st.length + idx else idx) then
          .error (.indexError "pop index out of range")
        else
          match PersistentList.getItem st (if idx < 0 then st.length + idx else idx) with
          | .error e => .error e
          | .ok item =>
            .ok (item, PersistentList.lenDelta
              (PersistentList.shiftFiles
                { st with files := fsDelete st.files (if idx < 0 then st.length + idx else idx) }
                ((if idx < 0 then st.length + idx else idx) + 1) (-1)) (-1)) := rfl

/-- `PersistentList.pop` at a valid index returns the reference element and
realises `List.eraseIdx`: the ascending shift fills the gap with nothing lost. -/
theorem pop_represents {T : Type} (st : ListState T) (L : List T) (idx : Int) (k : Nat)
    (h : represents st L)
    (hnorm : (if idx < 0 then (L.length : Int) + idx else idx) = (k : Int))
    (hklt : k < L.length) :
    ∃ st2, PersistentList.pop st idx = Except.ok (L.get ⟨k, hklt⟩, st2) ∧
      represents st2 (L.eraseIdx k) := by
  have hlen := h.1
  have hfiles := h.2
  have hidx2 : (if idx < 0 then st.length + idx else idx) = (k : Int) := by
    rw [hlen]; exact hnorm
  refine ⟨PersistentList.lenDelta
      (PersistentList.shiftFiles
        { st with files := fsDelete st.files (k : Int) } ((k : Int) + 1) (-1)) (-1),
    ?_, ?_, ?_⟩
  · rw [pop_eq, if_neg (show ¬st.length = 0 from by omega), hidx2,
      if_neg (show ¬((k : Int) < 0 ∨ st.length ≤ (k : Int)) from by omega),
      getItem_at st L h k hklt]
  · -- length of the popped state
    show st.length + (-1) = _
    have hlen2 := List.length_eraseIdx_add_one (l := L) (i := k) hklt
    omega
  · -- files of the popped state
    intro i
    show (PersistentList.shiftFiles
        { st with files := fsDelete st.files (k : Int) } ((k : Int) + 1) (-1)).files i = _
    rw [shiftFiles_down_files]
    have hhole : fsDelete st.files (k : Int) ((k : Int) + 1 - 1) = none := by
      simp [fsDelete]
    rw [show ({ st with files := fsDelete st.files (k : Int) } : ListState T).length
        = st.length from rfl]
    rw [shiftDown_spec ((k : Int) + 1) st.length (fsDelete st.files (k : Int))
      (by omega) hhole i]
    simp only [fsDelete]
    rw [eraseIdx_getElem? L k i.toNat]
    by_cases h0 : 0 ≤ i
    · rw [if_pos h0]
      by_cases h1 : i < (k : Int) + 1 - 1
      · rw [if_pos h1, if_neg (show ¬i = (k : Int) from by omega), hfiles i, if_pos h0,
          if_pos (show i.toNat < k from by omega)]
      · rw [if_neg h1, if_neg (show ¬i.toNat < k from by omega)]
        by_cases h2 : i + 1 < st.length
        · rw [if_pos h2, if_neg (show ¬i + 1 = (k : Int) from by omega), hfiles (i + 1),
            if_pos (by omega), show (i + 1).toNat = i.toNat + 1 from by omega]
        · by_cases h3 : i < st.length
          · rw [if_neg h2, if_pos h3]
            exact (List.getElem?_eq_none (by omega)).symm
          · rw [if_neg h2, if_neg h3, if_neg (show ¬i = (k : Int) from by omega),
              hfiles i, if_pos h0]
            rw [List.getElem?_eq_none (by omega), List.getElem?_eq_none (by omega)]
    · rw [if_neg h0, if_pos (show i < (k : Int) + 1 - 1 from by omega),
        if_neg (show ¬i = (k : Int) from by omega), hfiles i, if_neg h0]

theorem append_represents {T : Type} (st : ListState T) (L : List T) (v : T)
    (h : represents st L) :
    represents (PersistentList.append st v) (L ++ [v]) := by
  have hlen := h.1
  have hfiles := h.2
  constructor
  · show st.length + 1 = _
    rw [List.length_append, List.length_singleton]
    push_cast
    omega
  · intro i
    show fsWrite st.files st.length v i = _
    simp only [fsWrite]
    rw [append_singleton_getElem? L v i.toNat]
    by_cases hik : i = st.length
    · rw [if_pos hik, if_pos (by omega), if_neg (show ¬i.toNat < L.length from by omega),
        if_pos (show i.toNat = L.length from by omega)]
    · rw [if_neg hik, hfiles i]
      by_cases h0 : 0 ≤ i
      · rw [if_pos h0, if_pos h0]
        by_cases hlt : i < st.length
        · rw [if_pos (show i.toNat < L.length from by omega)]
        · rw [if_neg (show ¬i.toNat < L.length from by omega),
            if_neg (show ¬i.toNat = L.length from by omega)]
          exact List.getElem?_eq_none (by omega)
      · rw [if_neg h0, if_neg h0]

theorem fsWrite_represents {T : Type} (st : ListState T) (L : List T) (i : Int) (item : T)
    (h : represents st L) (h0 : 0 ≤ i) (hlt : i < st.length) :
    represents { st with files := fsWrite st.files i item } (L.set i.toNat item) := by
  have hlen := h.1
  have hfiles := h.2
  constructor
  · show st.length = _
    rw [List.length_set]
    exact hlen
  · intro q
    show fsWrite st.files i item q = _
    simp only [fsWrite]
    rw [List.getElem?_set]
    by_cases hq : q = i
    · rw [if_pos hq, if_pos (show (0:Int) ≤ q from by omega),
        if_pos (show i.toNat = q.toNat from by omega),
        if_pos (show i.toNat < L.length from by omega)]
    · rw [if_neg hq, hfiles q]
      by_cases h0q : 0 ≤ q
      · rw [if_pos h0q, if_pos h0q, if_neg (show ¬i.toNat = q.toNat from by omega)]
      · rw [if_neg h0q, if_neg h0q]

theorem extend_represents {T : Type} (items : List T) (st : ListState T) (L : List T)
    (h : represents st L) :
    represents (PersistentList.extend st items) (L ++ items) := by
  induction items generalizing st L with
  | nil => simpa using h
  | cons a items IH =>
    show represents (PersistentList.extend (PersistentList.append st a) items) _
    have h3 := IH (PersistentList.append st a) (L ++ [a]) (append_represents st L a h)
    simpa using h3

theorem validateIndex_spec {T : Type} (st : ListState T) (idx : Int) :
    (PersistentList.validateIndex st idx =
        .ok (if idx < 0 then st.length + idx else idx) ∧
      0 ≤ (if idx < 0 then st.length + idx else idx) ∧
      (if idx < 0 then st.length + idx else idx) < st.length) ∨
    PersistentList.validateIndex st idx = .error (.indexError "list index out of range") := by
  unfold PersistentList.validateIndex
  by_cases hc : (if idx < 0 then st.length + idx else idx) < 0 ∨
      st.length ≤ (if idx < 0 then st.length + idx else idx)
  · right
    rw [if_pos hc]
  · left
    exact ⟨by rw [if_neg hc], by omega, by omega⟩

/-- C6: Ordered Store negative index equivalence — for a store representing a
list of length `length` and any `-length ≤ i < 0`, `get(i)` returns the same
result as `get(length + i)`; for `i < -length` or `i ≥ length`, `get(i)` fails
with the IndexOutOfRange error (`IndexError("list index out of range")`). -/
theorem get_negative_index_equivalence {T : Type} (st : ListState T) (L : List T)
    (h : represents st L) (i : Int) :
    (-(L.length : Int) ≤ i → i < 0 →
      PersistentList.getItem st i = PersistentList.getItem st ((L.length : Int) + i)) ∧
    ((i < -(L.length : Int) ∨ (L.length : Int) ≤ i) →
      PersistentList.getItem st i = .error (.indexError "list index out of range")) := by
  have hlen := h.1
  constructor
  · intro hge hneg
    unfold PersistentList.getItem PersistentList.validateIndex
    rw [if_pos hneg, if_neg (show ¬((L.length : Int) + i < 0) from by omega),
      if_neg (show ¬(st.length + i < 0 ∨ st.length ≤ st.length + i) from by omega),
      if_neg (show ¬((L.length : Int) + i < 0 ∨ st.length ≤ (L.length : Int) + i) from by omega),
      hlen]
  · intro hout
    unfold PersistentList.getItem PersistentList.validateIndex
    by_cases hneg : i < 0
    · rw [if_pos hneg,
        if_pos (show st.length + i < 0 ∨ st.length ≤ st.length + i from by omega)]
    · rw [if_neg hneg, if_pos (show i < 0 ∨ st.length ≤ i from by omega)]

theorem mem_intRange {a b i : Int} : i ∈ intRange a b ↔ a ≤ i ∧ i < b := by
  by_cases h : a < b
  · rw [intRange_eq_cons h]
    simp only [List.mem_cons]
    constructor
    · rintro (rfl | hmem)
      · omega
      · have hm := (mem_intRange (a := a + 1) (b := b) (i := i)).1 hmem
        omega
    · rintro ⟨h1, h2⟩
      by_cases hia : i = a
      · exact Or.inl hia
      · exact Or.inr ((mem_intRange (a := a + 1) (b := b) (i := i)).2 ⟨by omega, h2⟩)
  · rw [intRange_eq_nil (by omega)]
    simp only [List.not_mem_nil, false_iff]
    omega
  termination_by (b - a).toNat
  decreasing_by all_goals omega

theorem length_intRange (a b : Int) : (intRange a b).length = (b - a).toNat := by
  by_cases h : a < b
  · rw [intRange_eq_cons h, List.length_cons, length_intRange (a + 1) b]
    omega
  · rw [intRange_eq_nil (by omega)]
    simp
    omega
  termination_by (b - a).toNat
  decreasing_by omega

/-- A successful `pop` implies the normalized index was valid. -/
theorem pop_ok_inv {T : Type} (st : ListState T) (L : List T) (idx : Int)
    (h : represents st L) (t : T) (st2 : ListState T)
    (hok : PersistentList.pop st idx = Except.ok (t, st2)) :
    ∃ k : Nat, (if idx < 0 then (L.length : Int) + idx else idx) = (k : Int) ∧ k < L.length := by
  have hlen := h.1
  rw [pop_eq] at hok
  by_cases h0 : st.length = 0
  · rw [if_pos h0] at hok
    exact absurd hok (by simp)
  · rw [if_neg h0] at hok
    by_cases h1 : (if idx < 0 then st.length + idx else idx) < 0 ∨
        st.length ≤ (if idx < 0 then st.length + idx else idx)
    · rw [if_pos h1] at hok
      exact absurd hok (by simp)
    · refine ⟨(if idx < 0 then st.length + idx else idx).toNat, ?_, by omega⟩
      rw [hlen] at h1 ⊢
      omega

theorem removeAux_represents {T : Type} [DecidableEq T] (st : ListState T) (L : List T)
    (h : represents st L) (item : T) (is : List Int) :
    ∀ t st2, PersistentList.removeAux st item is = Except.ok (t, st2) →
      ∃ L2, represents st2 L2 := by
  induction is with
  | nil =>
    intro t st2 hcontra
    exact absurd hcontra (by simp [PersistentList.removeAux])
  | cons i rest IH =>
    intro t st2 hok
    unfold PersistentList.removeAux at hok
    cases hfi : st.files i with
    | none =>
      rw [hfi] at hok
      exact absurd hok (by simp)
    | some v =>
      rw [hfi] at hok
      have hok2 : (if v = item then PersistentList.pop st i
          else PersistentList.removeAux st item rest) = Except.ok (t, st2) := hok
      by_cases hv : v = item
      · rw [if_pos hv] at hok2
        obtain ⟨k, hnorm, hklt⟩ := pop_ok_inv st L i h t st2 hok2
        obtain ⟨st3, hpop, hrep⟩ := pop_represents st L i k h hnorm hklt
        rw [hok2] at hpop
        have hst : st2 = st3 := by
          have hinj := (Except.ok.injEq _ _).mp hpop
          exact congrArg Prod.snd hinj
        rw [hst]
        exact ⟨_, hrep⟩
      · rw [if_neg hv] at hok2
        exact IH t st2 hok2

/-- One client operation on an Ordered Store; a raised exception leaves the
store unchanged (each operation validates before mutating). -/
inductive ListOp (T : Type) where
  | get (idx : Int)
  | set (idx : Int) (v : T)
  | append (v : T)
  | insert (idx : Int) (v : T)
  | pop (idx : Int)
  | remove (v : T)
  | extend (vs : List T)
  | clear

def applyListOp {T : Type} [DecidableEq T] (st : ListState T) : ListOp T → ListState T
  | .get _ => st
  | .set idx v =>
    match PersistentList.setItem st idx v with
    | .ok st2 => st2
    | .error _ => st
  | .append v => PersistentList.append st v
  | .insert idx v => PersistentList.insert st idx v
  | .pop idx =>
    match PersistentList.pop st idx with
    | .ok (_, st2) => st2
    | .error _ => st
  | .remove v =>
    match PersistentList.remove st v with
    | .ok (_, st2) => st2
    | .error _ => st
  | .extend vs => PersistentList.extend st vs
  | .clear => PersistentList.clear st

/-- A sequence of operations applied to a freshly bootstrapped Ordered Store. -/
def runListOps {T : Type} [DecidableEq T] (ops : List (ListOp T)) : ListState T :=
  ops.foldl applyListOp (emptyList T)

theorem applyListOp_represents {T : Type} [DecidableEq T] (st : ListState T) (L : List T)
    (h : represents st L) (op : ListOp T) : ∃ L2, represents (applyListOp st op) L2 := by
  cases op with
  | get idx => exact ⟨L, h⟩
  | set idx v =>
    show ∃ L2, represents (match PersistentList.setItem st idx v with
      | .ok st2 => st2 | .error _ => st) L2
    rcases validateIndex_spec st idx with ⟨hok, h0, hlt⟩ | herr
    · have hset : PersistentList.setItem st idx v = Except.ok
          { st with files := fsWrite st.files (if idx < 0 then st.length + idx else idx) v } := by
        unfold PersistentList.setItem
        rw [hok]
      rw [hset]
      exact ⟨_, fsWrite_represents st L _ v h h0 hlt⟩
    · have hset : PersistentList.setItem st idx v =
          Except.error (.indexError "list index out of range") := by
        unfold PersistentList.setItem
        rw [herr]
      rw [hset]
      exact ⟨L, h⟩
  | append v => exact ⟨_, append_represents st L v h⟩
  | insert idx v => exact ⟨_, insert_represents st L idx v h⟩
  | pop idx =>
    show ∃ L2, represents (match PersistentList.pop st idx with
      | .ok (_, st2) => st2 | .error _ => st) L2
    cases hpop : PersistentList.pop st idx with
    | error e => exact ⟨L, h⟩
    | ok p =>
      obtain ⟨t, st2⟩ := p
      obtain ⟨k, hnorm, hklt⟩ := pop_ok_inv st L idx h t st2 hpop
      obtain ⟨st3, hpop2, hrep⟩ := pop_represents st L idx k h hnorm hklt
      rw [hpop] at hpop2
      have hst : st2 = st3 := congrArg Prod.snd ((Except.ok.injEq _ _).mp hpop2)
      rw [hst]
      exact ⟨_, hrep⟩
  | remove v =>
    show ∃ L2, represents (match PersistentList.remove st v with
      | .ok (_, st2) => st2 | .error _ => st) L2
    cases hrem : PersistentList.remove st v with
    | error e => exact ⟨L, h⟩
    | ok p =>
      obtain ⟨t, st2⟩ := p
      exact removeAux_represents st L h v (intRange 0 st.length) t st2 hrem
  | extend vs => exact ⟨_, extend_represents vs st L h⟩
  | clear => exact ⟨[], represents_empty T⟩

theorem runListOps_represents {T : Type} [DecidableEq T] (ops : List (ListOp T)) :
    ∃ L, represents (runListOps ops) L := by
  suffices hgen : ∀ st L, represents st L → ∃ L2, represents (ops.foldl applyListOp st) L2 by
    exact hgen (emptyList T) [] (represents_empty T)
  induction ops with
  | nil => exact fun st L h => ⟨L, h⟩
  | cons op ops IH =>
    intro st L h
    obtain ⟨L2, h2⟩ := applyListOp_represents st L h op
    exact IH _ _ h2

theorem represents_file_count {T : Type} (st : ListState T) (L : List T)
    (h : represents st L) :
    (∀ i : Int, (st.files i).isSome ↔ i ∈ intRange 0 st.length) ∧
    ((intRange 0 st.length).length : Int) = st.length := by
  have hlen := h.1
  have hfiles := h.2
  constructor
  · intro i
    rw [hfiles i, mem_intRange]
    by_cases h0 : 0 ≤ i
    · rw [if_pos h0]
      constructor
      · intro hs
        have hlt : i.toNat < L.length := by
          by_contra hcon
          rw [List.getElem?_eq_none (by omega)] at hs
          simp at hs
        omega
      · rintro ⟨_, hlt⟩
        rw [List.getElem?_eq_getElem (show i.toNat < L.length from by omega)]
        simp
    · rw [if_neg h0]
      simp only [Option.isSome_none, Bool.false_eq_true, false_iff]
      omega
  · rw [length_intRange]
    omega

/-! ## Keyed Store (`PersistentDict`) -/

/-- Exceptions raised by `PersistentDict` operations: `KeyError(key)` and the
failed `assert pair.key == key` (`AssertionError`, the spec's
KeyIdentityMismatch defect signal). -/
inductive DictErr (K : Type) where
  | keyError (k : K)
  | assertionError

/-- State of one `PersistentDict` root: the metadata `length` field and the
entry files, an association list from resolved path to the stored
`(key, value)` pair. Each list entry is one file, so the number of entry
files under the root is the list's length. -/
structure DictState (K V P : Type) where
  length : Int
  files : List (P × K × V)

/-- A freshly bootstrapped root: metadata length 0 and no entry files. -/
def emptyDict (K V P : Type) : DictState K V P := ⟨0, []⟩

namespace PersistentDict

variable {K V P : Type} [DecidableEq K] [DecidableEq P]

/-- Reading the directory at path `p`: the stored pair if the file exists. -/
def flookup : List (P × K × V) → P → Option (K × V)
  | [], _ => none
  | (q, e) :: rest, p => if p = q then some e else flookup rest p

/-- `fp.write_bytes(...)`: overwrite the entry file at `p`, or create it. -/
def fstore : List (P × K × V) → P → K × V → List (P × K × V)
  | [], p, e => [(p, e)]
  | (q, e0) :: rest, p, e => if p = q then (q, e) :: rest else (q, e0) :: fstore rest p e

/-- `fp.unlink()`: remove the entry file at `p`. -/
def ferase : List (P × K × V) → P → List (P × K × V)
  | [], _ => []
  | (q, e0) :: rest, p => if p = q then rest else (q, e0) :: ferase rest p

/-- `PersistentDict.__contains__(key)`: `self._get_file_path(key).exists()`. -/
def contains (hash : K → P) (st : DictState K V P) (k : K) : Bool :=
  (flookup st.files (hash k)).isSome

/-- `PersistentDict.__setitem__(key, value)`: increment the length when the
resolved path is new, then write the serialized pair there. -/
def setItem (hash : K → P) (st : DictState K V P) (k : K) (v : V) : DictState K V P :=
  let fp := hash k
  { length := if (flookup st.files fp).isSome then st.length else st.length + 1,
    files := fstore st.files fp (k, v) }

/-- `PersistentDict.__getitem__(key)`: `KeyError` when the path is missing,
otherwise load the pair, `assert pair.key == key`, return the value. -/
def getItem (hash : K → P) (st : DictState K V P) (k : K) : Except (DictErr K) V :=
  match flookup st.files (hash k) with
  | none => .error (.keyError k)
  | some kv => if kv.1 = k then .ok kv.2 else .error .assertionError

/-- `PersistentDict.pop(key, defaultvalue=_undefined)`; `default = none` models
the `_undefined` sentinel. On a present key: load the pair's value, unlink the
file, decrement the length — the stored key is never compared to `key`. -/
def pop (hash : K → P) (st : DictState K V P) (k : K) (default : Option V) :
    Except (DictErr K) (V × DictState K V P) :=
  if contains hash st k = false then
    match default with
    | some d => .ok (d, st)
    | none => .error (.keyError k)
  else
    match flookup st.files (hash k) with
    | none => .error (.keyError k)
    | some kv =>
      .ok (kv.2, { length := st.length + (-1), files := ferase st.files (hash k) })

/-- Looking a key up in a Python mapping modelled by its entry list. -/
def lookupKey : List (K × V) → K → Option V
  | [], _ => none
  | (k0, v0) :: rest, k => if k = k0 then some v0 else lookupKey rest k

/-- The positional `other` argument of `PersistentDict.update`: a mapping
(an object with `keys()`) or an iterable of `(key, value)` pairs. -/
inductive UpdateSource (K V : Type) where
  | mapping (entries : List (K × V))
  | pairs (entries : List (K × V))

/-- `PersistentDict.update(other=None, **kwargs)`: when `other` is `None`,
store the named bindings; otherwise iterate `other` (its `keys()` plus
item lookup for a mapping, directly for an iterable of pairs). -/
def update (hash : K → P) (st : DictState K V P) (other : Option (UpdateSource K V))
    (kwargs : List (K × V)) : DictState K V P :=
  match other with
  | none => kwargs.foldl (fun s kv => setItem hash s kv.1 kv.2) st
  | some (.mapping entries) =>
    (entries.map Prod.fst).foldl (fun s key =>
      match lookupKey entries key with
      | some v => setItem hash s key v
      | none => s) st
  | some (.pairs entries) => entries.foldl (fun s kv => setItem hash s kv.1 kv.2) st

theorem flookup_fstore_self (fs : List (P × K × V)) (p : P) (e : K × V) :
    flookup (fstore fs p e) p = some e := by
  induction fs with
  | nil => simp [fstore, flookup]
  | cons a rest IH =>
    obtain ⟨q, e0⟩ := a
    unfold fstore
    by_cases hpq : p = q
    · rw [if_pos hpq]
      unfold flookup
      rw [if_pos hpq]
    · rw [if_neg hpq]
      unfold flookup
      rw [if_neg hpq]
      exact IH

theorem length_fstore_present (fs : List (P × K × V)) (p : P) (e : K × V)
    (h : (flookup fs p).isSome) : (fstore fs p e).length = fs.length := by
  induction fs with
  | nil => simp [flookup] at h
  | cons a rest IH =>
    obtain ⟨q, e0⟩ := a
    unfold fstore
    by_cases hpq : p = q
    · rw [if_pos hpq]
      simp
    · rw [if_neg hpq]
      unfold flookup at h
      rw [if_neg hpq] at h
      simp only [List.length_cons]
      rw [IH h]

theorem length_fstore_new (fs : List (P × K × V)) (p : P) (e : K × V)
    (h : flookup fs p = none) : (fstore fs p e).length = fs.length + 1 := by
  induction fs with
  | nil => simp [fstore]
  | cons a rest IH =>
    obtain ⟨q, e0⟩ := a
    unfold fstore
    unfold flookup at h
    by_cases hpq : p = q
    · rw [if_pos hpq] at h
      exact absurd h (by simp)
    · rw [if_neg hpq] at h
      rw [if_neg hpq]
      simp only [List.length_cons]
      rw [IH h]

theorem length_ferase (fs : List (P × K × V)) (p : P)
    (h : (flookup fs p).isSome) : (ferase fs p).length + 1 = fs.length := by
  induction fs with
  | nil => simp [flookup] at h
  | cons a rest IH =>
    obtain ⟨q, e0⟩ := a
    unfold ferase
    by_cases hpq : p = q
    · rw [if_pos hpq]
      simp
    · rw [if_neg hpq]
      unfold flookup at h
      rw [if_neg hpq] at h
      simp only [List.length_cons]
      rw [IH h]

end PersistentDict

/-- One client operation on a Keyed Store; a raised exception leaves the
store unchanged. -/
inductive DictOp (K V : Type) where
  | set (k : K) (v : V)
  | get (k : K)
  | pop (k : K) (default : Option V)
  | update (other : Option (PersistentDict.UpdateSource K V)) (kwargs : List (K × V))
  | clear

def applyDictOp {K V P : Type} [DecidableEq K] [DecidableEq P] (hash : K → P)
    (st : DictState K V P) : DictOp K V → DictState K V P
  | .set k v => PersistentDict.setItem hash st k v
  | .get _ => st
  | .pop k d =>
    match PersistentDict.pop hash st k d with
    | .ok (_, st2) => st2
    | .error _ => st
  | .update o kw => PersistentDict.update hash st o kw
  | .clear => emptyDict K V P

/-- A sequence of operations applied to a freshly bootstrapped Keyed Store. -/
def runDictOps {K V P : Type} [DecidableEq K] [DecidableEq P] (hash : K → P)
    (ops : List (DictOp K V)) : DictState K V P :=
  ops.foldl (applyDictOp hash) (emptyDict K V P)

/-- The Keyed Store length-accounting invariant: the metadata length equals
the number of entry files under the root. -/
def dictInv {K V P : Type} (st : DictState K V P) : Prop :=
  st.length = (st.files.length : Int)

theorem foldl_preserves {α β : Type} (Pr : α → Prop) (f : α → β → α)
    (hf : ∀ a b, Pr a → Pr (f a b)) : ∀ (l : List β) (a : α), Pr a → Pr (l.foldl f a) := by
  intro l
  induction l with
  | nil => exact fun a h => h
  | cons b l IH => exact fun a h => IH (f a b) (hf a b h)

theorem setItem_dictInv {K V P : Type} [DecidableEq K] [DecidableEq P] (hash : K → P)
    (st : DictState K V P) (k : K) (v : V) (h : dictInv st) :
    dictInv (PersistentDict.setItem hash st k v) := by
  show (if (PersistentDict.flookup st.files (hash k)).isSome then st.length else st.length + 1)
    = ((PersistentDict.fstore st.files (hash k) (k, v)).length : Int)
  by_cases hl : (PersistentDict.flookup st.files (hash k)).isSome
  · rw [if_pos hl, PersistentDict.length_fstore_present st.files (hash k) (k, v) hl]
    exact h
  · rw [if_neg hl, PersistentDict.length_fstore_new st.files (hash k) (k, v)
      (Option.not_isSome_iff_eq_none.mp hl)]
    have h2 : st.length = (st.files.length : Int) := h
    push_cast
    omega

theorem applyDictOp_dictInv {K V P : Type} [DecidableEq K] [DecidableEq P] (hash : K → P)
    (st : DictState K V P) (op : DictOp K V) (h : dictInv st) :
    dictInv (applyDictOp hash st op) := by
  cases op with
  | set k v => exact setItem_dictInv hash st k v h
  | get k => exact h
  | pop k d =>
    show dictInv (match PersistentDict.pop hash st k d with
      | .ok (_, st2) => st2 | .error _ => st)
    unfold PersistentDict.pop
    by_cases hc : PersistentDict.contains hash st k = false
    · rw [if_pos hc]
      cases d with
      | none => exact h
      | some dv => exact h
    · rw [if_neg hc]
      cases hl : PersistentDict.flookup st.files (hash k) with
      | none =>
        exact absurd (by simp [PersistentDict.contains, hl]) hc
      | some kv =>
        have hsome : (PersistentDict.flookup st.files (hash k)).isSome := by
          rw [hl]; rfl
        show dictInv { length := st.length + (-1), files := PersistentDict.ferase st.files (hash k) }
        show st.length + (-1) = ((PersistentDict.ferase st.files (hash k)).length : Int)
        have hlen := PersistentDict.length_ferase st.files (hash k) hsome
        have h2 : st.length = (st.files.length : Int) := h
        omega
  | update o kw =>
    cases o with
    | none =>
      exact foldl_preserves dictInv _
        (fun a b ha => setItem_dictInv hash a b.1 b.2 ha) kw st h
    | some src =>
      cases src with
      | mapping entries =>
        refine foldl_preserves dictInv _ ?_ (entries.map Prod.fst) st h
        intro a key ha
        show dictInv (match PersistentDict.lookupKey entries key with
          | some v => PersistentDict.setItem hash a key v
          | none => a)
        cases PersistentDict.lookupKey entries key with
        | none => exact ha
        | some v => exact setItem_dictInv hash a key v ha
      | pairs entries =>
        exact foldl_preserves dictInv _
          (fun a b ha => setItem_dictInv hash a b.1 b.2 ha) entries st h
  | clear => rfl

theorem runDictOps_dictInv {K V P : Type} [DecidableEq K] [DecidableEq P] (hash : K → P)
    (ops : List (DictOp K V)) : dictInv (runDictOps hash ops) :=
  foldl_preserves dictInv (applyDictOp hash)
    (fun a b ha => applyDictOp_dictInv hash a b ha) ops (emptyDict K V P) rfl

theorem getItem_setItem_self {K V P : Type} [DecidableEq K] [DecidableEq P]
    (hash : K → P) (st : DictState K V P) (k : K) (v : V) :
    PersistentDict.getItem hash (PersistentDict.setItem hash st k v) k = Except.ok v := by
  have hl : PersistentDict.flookup (PersistentDict.setItem hash st k v).files (hash k) =
      some (k, v) := by
    show PersistentDict.flookup (PersistentDict.fstore st.files (hash k) (k, v)) (hash k) = _
    exact PersistentDict.flookup_fstore_self st.files (hash k) (k, v)
  have hred : PersistentDict.getItem hash (PersistentDict.setItem hash st k v) k =
      if k = k then Except.ok v else Except.error .assertionError := by
    unfold PersistentDict.getItem
    rw [hl]
  rw [hred, if_pos rfl]

/-! ## Claim theorems -/

/-- C1: Ordered Store shift-direction correctness. Repeatedly inserting a
value at position 0 into a growing list leaves the store holding exactly the
elements of the reference in-memory list (each insert conses to the front),
with no element lost or duplicated — the insert shift renames files from the
highest existing index down to the insertion index, which is what
`shiftUp_spec` captures. -/
theorem insert_front_refines_reference {T : Type} (vs : List T) (st : ListState T)
    (L : List T) (h : represents st L) :
    represents (vs.foldl (fun s v => PersistentList.insert s 0 v) st)
      (vs.foldl (fun l v => v :: l) L) := by
  induction vs generalizing st L with
  | nil => exact h
  | cons a vs IH =>
    show represents (vs.foldl (fun s v => PersistentList.insert s 0 v)
      (PersistentList.insert st 0 a)) _
    have h2 := insert_represents st L 0 a h
    have hc : clampIdx (L.length : Int) 0 = 0 := by
      unfold clampIdx
      rw [if_neg (lt_irrefl 0)]
      exact min_eq_left (by exact_mod_cast Nat.zero_le L.length)
    rw [hc] at h2
    simp only [Int.toNat_zero, List.insertIdx_zero] at h2
    exact IH (PersistentList.insert st 0 a) (a :: L) h2

/-- Witness for C1: two front-inserts into a fresh store produce the store of
`["b", "a"]`. -/
theorem insert_front_refines_reference_witness :
    represents ((["a", "b"]).foldl (fun s v => PersistentList.insert s 0 v)
      (emptyList String)) ["b", "a"] :=
  insert_front_refines_reference ["a", "b"] (emptyList String) [] (represents_empty String)

/-- C4: `PersistentList.insert` clamps its index into `[0, length]` instead of
raising (it is total, unlike get/set/pop), and insert/pop are consistent:
from a store of `["a","b","c"]`, `insert 1 "X"` yields `["a","X","b","c"]` and
a subsequent `pop 0` returns `"a"` leaving `["X","b","c"]`. -/
theorem insert_clamps_and_insert_pop_consistency {T : Type} :
    (∀ (st : ListState T) (L : List T) (idx : Int) (v : T), represents st L →
      0 ≤ clampIdx (L.length : Int) idx ∧ clampIdx (L.length : Int) idx ≤ (L.length : Int) ∧
      represents (PersistentList.insert st idx v)
        (L.insertIdx (clampIdx (L.length : Int) idx).toNat v)) ∧
    (∀ st : ListState String, represents st ["a", "b", "c"] →
      represents (PersistentList.insert st 1 "X") ["a", "X", "b", "c"] ∧
      ∃ st2, PersistentList.pop (PersistentList.insert st 1 "X") 0 =
          Except.ok ("a", st2) ∧ represents st2 ["X", "b", "c"]) := by
  constructor
  · intro st L idx v h
    have hb := clampIdx_bounds (L.length : Int) idx (by exact_mod_cast Nat.zero_le L.length)
    exact ⟨hb.1, hb.2, insert_represents st L idx v h⟩
  · intro st h
    have h1 := insert_represents st ["a", "b", "c"] 1 "X" h
    have hc : clampIdx ((["a", "b", "c"] : List String).length : Int) 1 = 1 := by
      unfold clampIdx
      norm_num
    rw [hc] at h1
    have h1b : represents (PersistentList.insert st 1 "X") ["a", "X", "b", "c"] := by
      simpa using h1
    refine ⟨h1b, ?_⟩
    have h2 := pop_represents (PersistentList.insert st 1 "X") ["a", "X", "b", "c"] 0 0 h1b
      (by norm_num) (by norm_num)
    exact h2

/-- Witness for C4 at the concrete store of `["a","b","c"]`. -/
theorem insert_clamps_and_insert_pop_consistency_witness :
    represents (ofList ["a", "b", "c"]) ["a", "b", "c"] ∧
    (∃ st2, PersistentList.pop (PersistentList.insert (ofList ["a", "b", "c"]) 1 "X") 0 =
        Except.ok ("a", st2) ∧ represents st2 ["X", "b", "c"]) :=
  ⟨ofList_represents ["a", "b", "c"],
    ((insert_clamps_and_insert_pop_consistency (T := String)).2 (ofList ["a", "b", "c"])
      (ofList_represents ["a", "b", "c"])).2⟩

/-- Witness for C6 at the concrete store of `["a","b"]`: `get (-1)` equals
`get (2 + (-1))`, and `get 5` raises IndexOutOfRange. -/
theorem get_negative_index_equivalence_witness :
    PersistentList.getItem (ofList ["a", "b"]) (-1) =
      PersistentList.getItem (ofList ["a", "b"])
        (((["a", "b"] : List String).length : Int) + (-1)) ∧
    PersistentList.getItem (ofList ["a", "b"]) 5 =
      Except.error (ListErr.indexError "list index out of range") :=
  ⟨(get_negative_index_equivalence (ofList ["a", "b"]) ["a", "b"]
      (ofList_represents ["a", "b"]) (-1)).1 (by norm_num) (by norm_num),
    (get_negative_index_equivalence (ofList ["a", "b"]) ["a", "b"]
      (ofList_represents ["a", "b"]) 5).2 (by norm_num)⟩

/-- C3: length accounting invariant. After every completed single-threaded
sequence of operations on a freshly bootstrapped store, the metadata length
equals the number of entry files under the root: for the Ordered Store the
files present are exactly the indices in `range(0, length)` (whose count is
`length`), and for the Keyed Store the entry-file count is the metadata
length. -/
theorem length_equals_file_count {T K V P : Type} [DecidableEq T] [DecidableEq K]
    [DecidableEq P] (hash : K → P) :
    (∀ ops : List (ListOp T),
      (∀ i : Int, ((runListOps ops).files i).isSome ↔
        i ∈ intRange 0 (runListOps ops).length) ∧
      ((intRange 0 (runListOps ops).length).length : Int) = (runListOps ops).length) ∧
    (∀ ops : List (DictOp K V),
      ((runDictOps hash ops).files.length : Int) = (runDictOps hash ops).length) := by
  constructor
  · intro ops
    obtain ⟨L, hL⟩ := runListOps_represents ops
    exact represents_file_count _ L hL
  · intro ops
    exact (runDictOps_dictInv hash ops).symm

/-- C2: Keyed Store round-trip — under a deterministic, collision-free
(injective) hash, `set(k, v)` followed by `get(k)` returns exactly `v`. -/
theorem set_get_roundtrip {K V P : Type} [DecidableEq K] [DecidableEq P]
    (hash : K → P) (hinj : Function.Injective hash) (st : DictState K V P)
    (k : K) (v : V) :
    PersistentDict.getItem hash (PersistentDict.setItem hash st k v) k = Except.ok v :=
  getItem_setItem_self hash st k v

/-- Witness for C2 with the injective identity hash on `Nat`. -/
theorem set_get_roundtrip_witness :
    Function.Injective (fun n : Nat => n) ∧
    PersistentDict.getItem (fun n : Nat => n)
      (PersistentDict.setItem (fun n : Nat => n) (emptyDict Nat Nat Nat) 3 42) 3 =
      Except.ok 42 :=
  ⟨fun a b hab => hab,
    set_get_roundtrip (fun n : Nat => n) (fun a b hab => hab) (emptyDict Nat Nat Nat) 3 42⟩

/-- C5: Keyed Store pop default-on-miss — for an absent key, `pop(k, d)`
returns `d` without raising while `pop(k)` with no default raises
`KeyError(k)` (NotFound); for a present key, `pop` loads the stored value,
deletes the entry file, decrements the length and returns the value. -/
theorem pop_default_on_miss {K V P : Type} [DecidableEq K] [DecidableEq P]
    (hash : K → P) (st : DictState K V P) (k : K) :
    (PersistentDict.flookup st.files (hash k) = none →
      (∀ d : V, PersistentDict.pop hash st k (some d) = Except.ok (d, st)) ∧
      PersistentDict.pop hash st k none = Except.error (.keyError k)) ∧
    (∀ kv, PersistentDict.flookup st.files (hash k) = some kv → ∀ d : Option V,
      PersistentDict.pop hash st k d = Except.ok (kv.2,
        { length := st.length + (-1),
          files := PersistentDict.ferase st.files (hash k) })) := by
  constructor
  · intro hmiss
    have hc : PersistentDict.contains hash st k = false := by
      simp [PersistentDict.contains, hmiss]
    constructor
    · intro d
      unfold PersistentDict.pop
      rw [if_pos hc]
    · unfold PersistentDict.pop
      rw [if_pos hc]
  · intro kv hkv d
    have hc : ¬(PersistentDict.contains hash st k = false) := by
      simp [PersistentDict.contains, hkv]
    unfold PersistentDict.pop
    rw [if_neg hc, hkv]

/-- Witness for C5: a concrete store with one entry at path 0; key 5 misses
(default returned, or `KeyError` without default), key 0 hits. -/
theorem pop_default_on_miss_witness :
    PersistentDict.pop (fun n : Nat => n) (⟨1, [(0, 7, 10)]⟩ : DictState Nat Nat Nat) 5
        (some 99) = Except.ok (99, (⟨1, [(0, 7, 10)]⟩ : DictState Nat Nat Nat)) ∧
    PersistentDict.pop (fun n : Nat => n) (⟨1, [(0, 7, 10)]⟩ : DictState Nat Nat Nat) 5
        none = Except.error (DictErr.keyError 5) ∧
    PersistentDict.pop (fun n : Nat => n) (⟨1, [(0, 7, 10)]⟩ : DictState Nat Nat Nat) 0
        none = Except.ok (10, ⟨1 + (-1), []⟩) :=
  ⟨((pop_default_on_miss (fun n : Nat => n) ⟨1, [(0, 7, 10)]⟩ 5).1 rfl).1 99,
    ((pop_default_on_miss (fun n : Nat => n) ⟨1, [(0, 7, 10)]⟩ 5).1 rfl).2,
    (pop_default_on_miss (fun n : Nat => n) ⟨1, [(0, 7, 10)]⟩ 0).2 (7, 10) rfl none⟩

/-- C7: overwrite does not grow length — after `set(k,v1); set(k,v2)`,
`get(k)` returns `v2` and the second `set` leaves the length unchanged; in
general `set` increments the length exactly when the resolved path is new. -/
theorem overwrite_preserves_length {K V P : Type} [DecidableEq K] [DecidableEq P]
    (hash : K → P) (st : DictState K V P) (k : K) (v1 v2 : V) :
    PersistentDict.getItem hash
        (PersistentDict.setItem hash (PersistentDict.setItem hash st k v1) k v2) k =
      Except.ok v2 ∧
    (PersistentDict.setItem hash (PersistentDict.setItem hash st k v1) k v2).length =
      (PersistentDict.setItem hash st k v1).length ∧
    (∀ (k0 : K) (v0 : V), (PersistentDict.flookup st.files (hash k0)).isSome →
      (PersistentDict.setItem hash st k0 v0).length = st.length) ∧
    (∀ (k0 : K) (v0 : V), PersistentDict.flookup st.files (hash k0) = none →
      (PersistentDict.setItem hash st k0 v0).length = st.length + 1) := by
  refine ⟨getItem_setItem_self hash (PersistentDict.setItem hash st k v1) k v2, ?_, ?_, ?_⟩
  · have hl : PersistentDict.flookup (PersistentDict.setItem hash st k v1).files (hash k) =
        some (k, v1) := by
      show PersistentDict.flookup (PersistentDict.fstore st.files (hash k) (k, v1)) (hash k) = _
      exact PersistentDict.flookup_fstore_self st.files (hash k) (k, v1)
    show (if (PersistentDict.flookup (PersistentDict.setItem hash st k v1).files
        (hash k)).isSome then (PersistentDict.setItem hash st k v1).length
      else (PersistentDict.setItem hash st k v1).length + 1) = _
    rw [hl]
    rfl
  · intro k0 v0 hsome
    show (if (PersistentDict.flookup st.files (hash k0)).isSome then st.length
      else st.length + 1) = st.length
    rw [if_pos hsome]
  · intro k0 v0 hnone
    show (if (PersistentDict.flookup st.files (hash k0)).isSome then st.length
      else st.length + 1) = st.length + 1
    rw [hnone]
    rfl

/-- Witness for C7: overwriting the present path 0 keeps length 1; writing the
fresh path 5 increments it. -/
theorem overwrite_preserves_length_witness :
    (PersistentDict.setItem (fun n : Nat => n)
      (⟨1, [(0, 7, 10)]⟩ : DictState Nat Nat Nat) 0 99).length = 1 ∧
    (PersistentDict.setItem (fun n : Nat => n)
      (⟨1, [(0, 7, 10)]⟩ : DictState Nat Nat Nat) 5 99).length = 1 + 1 :=
  ⟨(overwrite_preserves_length (fun n : Nat => n) ⟨1, [(0, 7, 10)]⟩ 0 0 0).2.2.1 0 99 rfl,
    (overwrite_preserves_length (fun n : Nat => n) ⟨1, [(0, 7, 10)]⟩ 0 0 0).2.2.2 5 99 rfl⟩

/-- C8: Keyed Store collision defense in `get` — a missing path raises
`KeyError` (NotFound); a present path is deserialized and the stored key is
asserted equal to the queried key, so a colliding entry surfaces as the
KeyIdentityMismatch defect (`AssertionError`) rather than silently returning
the other key's value. -/
theorem get_collision_defense {K V P : Type} [DecidableEq K] [DecidableEq P]
    (hash : K → P) (st : DictState K V P) (k : K) :
    (PersistentDict.flookup st.files (hash k) = none →
      PersistentDict.getItem hash st k = Except.error (.keyError k)) ∧
    (∀ (k2 : K) (v : V), PersistentDict.flookup st.files (hash k) = some (k2, v) →
      (k2 = k → PersistentDict.getItem hash st k = Except.ok v) ∧
      (k2 ≠ k → PersistentDict.getItem hash st k = Except.error .assertionError)) := by
  constructor
  · intro hm
    unfold PersistentDict.getItem
    rw [hm]
  · intro k2 v hl
    have hred : PersistentDict.getItem hash st k =
        if k2 = k then Except.ok v else Except.error .assertionError := by
      unfold PersistentDict.getItem
      rw [hl]
    constructor
    · intro he
      rw [hred, if_pos he]
    · intro hne
      rw [hred, if_neg hne]

/-- Witness for C8: under the constant hash, a key missing from an empty store
raises `KeyError`; the stored key 7 is returned for the matching query and a
colliding query 3 surfaces the `AssertionError` defect. -/
theorem get_collision_defense_witness :
    PersistentDict.getItem (fun _ : Nat => (0 : Nat)) (emptyDict Nat Nat Nat) 3 =
      Except.error (DictErr.keyError 3) ∧
    PersistentDict.getItem (fun _ : Nat => (0 : Nat))
      (⟨1, [(0, 7, 10)]⟩ : DictState Nat Nat Nat) 7 = Except.ok 10 ∧
    PersistentDict.getItem (fun _ : Nat => (0 : Nat))
      (⟨1, [(0, 7, 10)]⟩ : DictState Nat Nat Nat) 3 =
      Except.error DictErr.assertionError :=
  ⟨(get_collision_defense (fun _ : Nat => 0) (emptyDict Nat Nat Nat) 3).1 rfl,
    ((get_collision_defense (fun _ : Nat => 0) ⟨1, [(0, 7, 10)]⟩ 7).2 7 10 (by rfl)).1 rfl,
    ((get_collision_defense (fun _ : Nat => 0) ⟨1, [(0, 7, 10)]⟩ 3).2 7 10 (by rfl)).2
      (by decide)⟩

/-- C9: the key-identity check applies only to `get`, not to `pop` — when the
resolved path holds a pair whose stored key differs from the queried key,
`pop` still returns the stored value and deletes the file (silently), whereas
`get` on the same store detects the mismatch. -/
theorem pop_skips_key_identity_check {K V P : Type} [DecidableEq K] [DecidableEq P]
    (hash : K → P) (st : DictState K V P) (k k2 : K) (v : V)
    (hl : PersistentDict.flookup st.files (hash k) = some (k2, v)) (hne : k2 ≠ k) :
    PersistentDict.pop hash st k none = Except.ok (v,
      { length := st.length + (-1),
        files := PersistentDict.ferase st.files (hash k) }) ∧
    PersistentDict.getItem hash st k = Except.error .assertionError := by
  constructor
  · have hc : ¬(PersistentDict.contains hash st k = false) := by
      simp [PersistentDict.contains, hl]
    unfold PersistentDict.pop
    rw [if_neg hc, hl]
  · have hred : PersistentDict.getItem hash st k =
        if k2 = k then Except.ok v else Except.error .assertionError := by
      unfold PersistentDict.getItem
      rw [hl]
    rw [hred, if_neg hne]

/-- Witness for C9: under the constant hash, popping key 3 from the store
holding `(key 7, value 10)` at the colliding path returns 10 and deletes the
entry, while `get 3` raises the defect. -/
theorem pop_skips_key_identity_check_witness :
    PersistentDict.pop (fun _ : Nat => (0 : Nat))
      (⟨1, [(0, 7, 10)]⟩ : DictState Nat Nat Nat) 3 none =
      Except.ok (10, ⟨1 + (-1), []⟩) ∧
    PersistentDict.getItem (fun _ : Nat => (0 : Nat))
      (⟨1, [(0, 7, 10)]⟩ : DictState Nat Nat Nat) 3 =
      Except.error DictErr.assertionError :=
  pop_skips_key_identity_check (fun _ : Nat => 0) ⟨1, [(0, 7, 10)]⟩ 3 7 10 rfl (by decide)

/-- C10: `PersistentDict.update` silently discards its keyword arguments
whenever a positional source is supplied — with `other ≠ None` the result is
independent of `kwargs` and stores exactly the pairs from `other`; `kwargs`
are stored only when `other` is `None`. -/
theorem update_discards_kwargs {K V P : Type} [DecidableEq K] [DecidableEq P]
    (hash : K → P) (st : DictState K V P) :
    (∀ (other : PersistentDict.UpdateSource K V) (kwargs : List (K × V)),
      PersistentDict.update hash st (some other) kwargs =
        PersistentDict.update hash st (some other) []) ∧
    (∀ (entries : List (K × V)) (kwargs : List (K × V)),
      PersistentDict.update hash st (some (.pairs entries)) kwargs =
        entries.foldl (fun s kv => PersistentDict.setItem hash s kv.1 kv.2) st) ∧
    (∀ kwargs : List (K × V),
      PersistentDict.update hash st none kwargs =
        kwargs.foldl (fun s kv => PersistentDict.setItem hash s kv.1 kv.2) st) := by
  refine ⟨?_, ?_, ?_⟩
  · intro other kwargs
    cases other <;> rfl
  · intro entries kwargs
    rfl
  · intro kwargs
    rfl

end PersistentStore
